import Mathlib

/-!
Verification development for the `any-arena` crate (`src/any_arena.rs`), a
reflection-based arena allocator.  The Rust source is shallowly embedded:

* `usize` is modelled as `Nat`; the target is 64-bit, so `usize::MAX` is
  `2 ^ 64 - 1`, `size_of::<*const TyDesc>() = align_of::<*const TyDesc>() = 8`.
  Bitwise operations of the source (`&`, `|`, `^`, `!`) are modelled with
  `Nat.land`, `Nat.lor`, `Nat.xor`; `!x` on `usize` is `Nat.xor usizeMax x`.
* A `TyDesc` (the vtable-derived type descriptor) is identified by its
  address, a `Nat`; a global table `tds : Nat → TyDesc` maps the address to
  the `{size, align}` record it points at.  `get_tydesc::<T>()` returning a
  pointer whose target holds `size_of::<T>` / `align_of::<T>` is modelled by
  calling the allocation path with `(tds td).size` / `(tds td).align`.
* A `Chunk`'s backing buffer is modelled by its capacity, its fill cursor and
  a memory map `mem : Nat → Nat` giving, for each byte offset, the `usize`
  word written there by a header store (payload stores are irrelevant to the
  claims and are not modelled).
* Running a destructor (`(*tydesc).drop_glue(ptr)`) is modelled as emitting a
  `DropEvent` recording the descriptor address and the payload offset, so a
  destroy walk returns the list of destructor invocations in order.
* `RawVec::reserve_in_place` depends on the system allocator; it is modelled
  by an oracle `inP : Option Nat`: `some c` means the in-place extension
  succeeded and the capacity is now `c`, `none` means it failed.
* A panicking user initializer is modelled by a boolean oracle on the
  noncopy allocation path: the header write happens, the finalize step does
  not.
-/

/-- Number of value bits in `usize` (64-bit target). -/
def usizeBits : Nat := 64

/-- Model of `usize::MAX`. -/
def usizeMax : Nat := 2 ^ 64 - 1

/-- Model of `mem::size_of::<*const TyDesc>()` on the 64-bit target. -/
def ptrSize : Nat := 8

/-- Model of `mem::align_of::<*const TyDesc>()` on the 64-bit target. -/
def ptrAlign : Nat := 8

/-- Source `round_up(base, align) = (base.checked_add(align - 1)).unwrap() & !(align - 1)`.
The bitwise complement of the `usize` value `align - 1` is `usizeMax ^^^ (align - 1)`.
(The `checked_add` panic on overflow is handled by side conditions
`base + (align - 1) ≤ usizeMax` in the theorems that use this function.) -/
def round_up (base align : Nat) : Nat :=
  (base + (align - 1)) &&& (usizeMax ^^^ (align - 1))

/-- Source `bitpack_tydesc_ptr(p, is_done) = p as usize | (is_done as usize)`. -/
def bitpack_tydesc_ptr (p : Nat) (is_done : Bool) : Nat :=
  p ||| (if is_done then 1 else 0)

/-- Source `un_bitpack_tydesc_ptr(p) = ((p & !1) as *const TyDesc, p & 1 == 1)`. -/
def un_bitpack_tydesc_ptr (p : Nat) : Nat × Bool :=
  (p &&& (usizeMax ^^^ 1), p &&& 1 == 1)

/-- Fuel-driven bit length: `bitsAux fuel n` is the number of binary digits of
`n` provided `fuel` bounds the recursion depth.  Executable counterpart of
`log2 n + 1`. -/
def bitsAux : Nat → Nat → Nat
  | 0, _ => 0
  | fuel + 1, n => if n = 0 then 0 else bitsAux fuel (n / 2) + 1

/-- Model of Rust `usize::next_power_of_two`: the smallest power of two
greater than or equal to the argument (`1` for `0`). -/
def next_power_of_two (n : Nat) : Nat :=
  if n ≤ 1 then 1 else 2 ^ bitsAux (n - 1) (n - 1)

/-- Executable test that `n` is a power of two. -/
def isPow2 (n : Nat) : Bool := n == next_power_of_two n

/-- Model of the `TyDesc` record (`drop_glue` is identified by the descriptor
address itself, so only `size` and `align` are fields). -/
structure TyDesc where
  size : Nat
  align : Nat
deriving DecidableEq

/-- One destructor invocation performed by a destroy walk: the descriptor
address whose `drop_glue` was called, and the payload offset it was called on. -/
structure DropEvent where
  td : Nat
  payload : Nat
deriving DecidableEq

/-- Model of `Chunk`: capacity of the `RawVec`, fill cursor, copy flag, and
the words stored at header offsets of the buffer. -/
structure Chunk where
  cap : Nat
  fill : Nat
  is_copy : Bool
  mem : Nat → Nat

/-- Source `Chunk::new(size, is_copy)`: a `RawVec` of capacity `size`, fill `0`. -/
def Chunk.new (size : Nat) (is_copy : Bool) : Chunk :=
  { cap := size, fill := 0, is_copy := is_copy, mem := fun _ => 0 }

/-- The loop body of `Chunk::destroy`, with explicit fuel (the source loop
terminates because each step advances `idx`; `fill` is always enough fuel for
the well-formed chunks the arena builds).  Returns the destructor invocations
in the order the walk performs them. -/
def destroyLoop (tds : Nat → TyDesc) (mem : Nat → Nat) (fill : Nat) :
    Nat → Nat → List DropEvent
  | 0, _ => []
  | fuel + 1, idx =>
    if idx < fill then
      let packed := mem idx
      let tydesc := (un_bitpack_tydesc_ptr packed).1
      let is_done := (un_bitpack_tydesc_ptr packed).2
      let size := (tds tydesc).size
      let align := (tds tydesc).align
      let after_tydesc := idx + ptrSize
      let start := round_up after_tydesc align
      let next := round_up (start + size) ptrAlign
      if is_done then
        ⟨tydesc, start⟩ :: destroyLoop tds mem fill fuel next
      else
        destroyLoop tds mem fill fuel next
    else []

/-- Source `Chunk::destroy`: walk the chunk from offset `0` up to `fill`. -/
def Chunk.destroy (tds : Nat → TyDesc) (c : Chunk) : List DropEvent :=
  destroyLoop tds c.mem c.fill c.fill 0

/-- Model of `AnyArena`: the two active chunks and the retired list. -/
structure AnyArena where
  head : Chunk
  copy_head : Chunk
  chunks : List Chunk

/-- Source `AnyArena::new_with_size`. -/
def AnyArena.new_with_size (initial_size : Nat) : AnyArena :=
  { head := Chunk.new initial_size false
    copy_head := Chunk.new initial_size true
    chunks := [] }

/-- Source `AnyArena::new()`, 32 bytes preallocated. -/
def AnyArena.mkNew : AnyArena := AnyArena.new_with_size 32

/-- Result of `alloc_grow`: the chunk now installed at the head slot, the
chunk pushed onto the retired list (if any), and the returned boolean. -/
structure GrowRes where
  head : Chunk
  retired : Option Chunk
  replaced : Bool

/-- Source `AnyArena::alloc_grow(head, used_cap, n_bytes)`.  `inP` is the
`reserve_in_place` oracle: `some newCap` models a successful in-place
extension to capacity `newCap`, `none` models failure, after which a
replacement chunk of capacity `(max(n_bytes, head.capacity()) + 1).next_power_of_two()`
is installed and the displaced chunk is pushed iff its fill is nonzero. -/
def alloc_grow (inP : Option Nat) (head : Chunk) (used_cap n_bytes : Nat) : GrowRes :=
  match inP with
  | some newCap =>
    { head := { head with cap := newCap }, retired := none, replaced := false }
  | none =>
    let new_min_chunk_size := max n_bytes head.cap
    let new_chunk := Chunk.new (next_power_of_two (new_min_chunk_size + 1)) false
    { head := new_chunk
      retired := if head.fill ≠ 0 then some head else none
      replaced := true }

/-- Result of `alloc_copy_inner`: the arena afterwards, the offset of the
returned pointer within the (possibly new) copy head, and a ghost flag
recording whether a replacement chunk was installed. -/
structure CopyRes where
  st : AnyArena
  start : Nat
  replaced : Bool

/-- Source `AnyArena::alloc_copy_inner(n_bytes, align)`. -/
def alloc_copy_inner (inP : Option Nat) (st : AnyArena) (n_bytes align : Nat) : CopyRes :=
  let copy_head := st.copy_head
  let fill := copy_head.fill
  let start := round_up fill align
  let endv := start + n_bytes
  if endv > copy_head.cap then
    let g := alloc_grow inP copy_head fill (endv - fill)
    if g.replaced then
      -- continuing with a newly allocated chunk: start = 0, end = n_bytes,
      -- is_copy set to true, then fill set to end
      { st := { st with
                copy_head := { g.head with is_copy := true, fill := n_bytes }
                chunks := st.chunks ++ g.retired.toList }
        start := 0
        replaced := true }
    else
      { st := { st with
                copy_head := { g.head with fill := endv }
                chunks := st.chunks ++ g.retired.toList }
        start := start
        replaced := false }
  else
    { st := { st with copy_head := { copy_head with fill := endv } }
      start := start
      replaced := false }

/-- Result of `alloc_noncopy_inner`: the arena afterwards, the header offset
and payload offset within the (possibly new) head, and a ghost replacement
flag. -/
structure NCRes where
  st : AnyArena
  tydesc_start : Nat
  start : Nat
  replaced : Bool

/-- Source `AnyArena::alloc_noncopy_inner(n_bytes, align)`. -/
def alloc_noncopy_inner (inP : Option Nat) (st : AnyArena) (n_bytes align : Nat) : NCRes :=
  let head := st.head
  let fill := head.fill
  let tydesc_start := fill
  let after_tydesc := fill + ptrSize
  let start := round_up after_tydesc align
  let endv := round_up (start + n_bytes) ptrAlign
  if endv > head.cap then
    let g := alloc_grow inP head tydesc_start (endv - tydesc_start)
    if g.replaced then
      -- continuing with a newly allocated chunk
      let start2 := round_up ptrSize align
      let end2 := round_up (start2 + n_bytes) ptrAlign
      { st := { st with
                head := { g.head with fill := end2 }
                chunks := st.chunks ++ g.retired.toList }
        tydesc_start := 0
        start := start2
        replaced := true }
    else
      { st := { st with
                head := { g.head with fill := endv }
                chunks := st.chunks ++ g.retired.toList }
        tydesc_start := tydesc_start
        start := start
        replaced := false }
  else
    { st := { st with head := { head with fill := endv } }
      tydesc_start := tydesc_start
      start := start
      replaced := false }

/-- Store a `usize` word at a header offset of a chunk's buffer. -/
def writeWord (c : Chunk) (off v : Nat) : Chunk :=
  { c with mem := fun i => if i = off then v else c.mem i }

/-- Source `AnyArena::alloc_noncopy::<T>(op)` for the type described by the
descriptor at address `td`.  `panics = true` models `op()` unwinding: the
header has been written with the init bit clear and the finalize store never
happens; the returned payload offset is `none`.  On success the header is
rewritten with the init bit set. -/
def alloc_noncopy (tds : Nat → TyDesc) (inP : Option Nat) (td : Nat) (panics : Bool)
    (st : AnyArena) : AnyArena × Option Nat :=
  let r := alloc_noncopy_inner inP st (tds td).size (tds td).align
  let st1 := { r.st with
               head := writeWord r.st.head r.tydesc_start (bitpack_tydesc_ptr td false) }
  if panics then (st1, none)
  else
    let st2 := { st1 with
                 head := writeWord st1.head r.tydesc_start (bitpack_tydesc_ptr td true) }
    (st2, some r.start)

/-- Source `AnyArena::alloc_copy::<T>(op)`: reserve, then write the value
(payload stores are not modelled).  Returns the payload offset. -/
def alloc_copy (inP : Option Nat) (st : AnyArena) (n_bytes align : Nat) : AnyArena × Nat :=
  let r := alloc_copy_inner inP st n_bytes align
  (r.st, r.start)

/-- Source `AnyArena::alloc_bytes(len)`: `none` models the explicit
`checked_add` panic (`fill + len` overflowing `usize`); otherwise the request
is routed through `alloc_copy_inner(len, 1)` and a slice `(state, start, len)`
is returned. -/
def alloc_bytes (inP : Option Nat) (st : AnyArena) (len : Nat) :
    Option (AnyArena × Nat × Nat) :=
  if st.copy_head.fill + len ≤ usizeMax then
    let r := alloc_copy_inner inP st len 1
    some (r.st, r.start, len)
  else
    none

/-- The retired-chunk part of `clear`/`drop`: destroy every retired chunk
that is not a copy chunk, in retirement order, collecting the destructor
invocations. -/
def chunksEvents (tds : Nat → TyDesc) : List Chunk → List DropEvent
  | [] => []
  | c :: cs => (if c.is_copy then [] else Chunk.destroy tds c) ++ chunksEvents tds cs

/-- Source `AnyArena::clear`: destroy the head, reset both fill cursors,
destroy retired noncopy chunks, empty the retired list.  Returns the new
arena and the destructor invocations in order. -/
def AnyArena.clear (tds : Nat → TyDesc) (st : AnyArena) : AnyArena × List DropEvent :=
  let ev := Chunk.destroy tds st.head ++ chunksEvents tds st.chunks
  ({ head := { st.head with fill := 0 }
     copy_head := { st.copy_head with fill := 0 }
     chunks := [] }, ev)

/-- Source `impl Drop for AnyArena`: destroy the head and every retired
noncopy chunk (fills are not reset; the memory is freed afterwards).  Returns
the destructor invocations in order. -/
def AnyArena.dropAll (tds : Nat → TyDesc) (st : AnyArena) : List DropEvent :=
  Chunk.destroy tds st.head ++ chunksEvents tds st.chunks

/-- One external call on the arena, together with its environment oracles. -/
inductive Op where
  | allocCopy (inP : Option Nat) (n_bytes align : Nat)
  | allocNoncopy (inP : Option Nat) (td : Nat) (panics : Bool)
  | allocBytes (inP : Option Nat) (len : Nat)
  | clearOp
deriving DecidableEq

/-- Step the arena by one call; destructor invocations (from `clear`) are
returned alongside.  A panicking `alloc_bytes` leaves the state unchanged. -/
def step (tds : Nat → TyDesc) (st : AnyArena) : Op → AnyArena × List DropEvent
  | .allocCopy inP n a => ((alloc_copy inP st n a).1, [])
  | .allocNoncopy inP td p => ((alloc_noncopy tds inP td p st).1, [])
  | .allocBytes inP len =>
    (match alloc_bytes inP st len with
     | some r => r.1
     | none => st, [])
  | .clearOp => AnyArena.clear tds st

/-- Run a list of calls, collecting all destructor invocations. -/
def run (tds : Nat → TyDesc) (st : AnyArena) : List Op → AnyArena × List DropEvent
  | [] => (st, [])
  | op :: ops =>
    let r := step tds st op
    let r2 := run tds r.1 ops
    (r2.1, r.2 ++ r2.2)

/-- Number of noncopy allocations in the list whose initializer completes. -/
def countSucc : List Op → Nat
  | [] => 0
  | .allocNoncopy _ _ false :: ops => countSucc ops + 1
  | _ :: ops => countSucc ops

/-- Per-call side conditions: descriptor addresses are even and representable
(guaranteed by the descriptor's alignment in the source), alignments are
powers of two (guaranteed by the language for `align_of`), and the offset
arithmetic of the call stays within `usize` (otherwise the source panics in
`round_up`'s `checked_add`). -/
def opSafe (tds : Nat → TyDesc) (st : AnyArena) : Op → Bool
  | .allocNoncopy _ td _ =>
    (td % 2 == 0) && (decide (td + 1 ≤ usizeMax)) && isPow2 (tds td).align &&
      decide (st.head.fill + (tds td).align + (tds td).size + 16 ≤ usizeMax)
  | .allocCopy _ n a =>
    isPow2 a && decide (st.copy_head.fill + a + n ≤ usizeMax)
  | .allocBytes _ len => decide (st.copy_head.fill + len ≤ usizeMax)
  | .clearOp => true

/-- All calls of the list satisfy `opSafe` in the state where they run. -/
def safeOps (tds : Nat → TyDesc) (st : AnyArena) : List Op → Bool
  | [] => true
  | op :: ops => opSafe tds st op && safeOps tds (step tds st op).1 ops

/-- `true` when the list contains no `clear` call. -/
def noClear : List Op → Bool
  | [] => true
  | .clearOp :: _ => false
  | _ :: ops => noClear ops

/-- Payload offset of the slot whose header is at `idx` (the walk's `start`). -/
def slotStart (tds : Nat → TyDesc) (td idx : Nat) : Nat :=
  round_up (idx + ptrSize) (tds td).align

/-- Offset of the header following the slot whose header is at `idx`. -/
def slotNext (tds : Nat → TyDesc) (td idx : Nat) : Nat :=
  round_up (slotStart tds td idx + (tds td).size) ptrAlign

/-- One allocation record of a noncopy chunk: header offset, descriptor
address, and whether the finalize store ran. -/
structure ARec where
  idx : Nat
  td : Nat
  done : Bool
deriving DecidableEq

/-- `ChunkRecs tds mem idx fill rs`: walking the buffer `mem` from offset
`idx` up to `fill` parses exactly the allocation records `rs`.  Each header
stores a packed descriptor with clear low bit, payloads start past the
header, and each slot ends strictly beyond where it starts. -/
inductive ChunkRecs (tds : Nat → TyDesc) (mem : Nat → Nat) : Nat → Nat → List ARec → Prop where
  | nil (fill : Nat) : ChunkRecs tds mem fill fill []
  | cons (idx fill td : Nat) (done : Bool) (rs : List ARec)
      (hlt : idx < fill)
      (hmem : mem idx = bitpack_tydesc_ptr td done)
      (heven : td % 2 = 0)
      (hmax : td + 1 ≤ usizeMax)
      (hpay : idx + ptrSize ≤ slotStart tds td idx)
      (hsn : slotStart tds td idx ≤ slotNext tds td idx)
      (hrest : ChunkRecs tds mem (slotNext tds td idx) fill rs) :
      ChunkRecs tds mem idx fill (⟨idx, td, done⟩ :: rs)

/-- Destructor invocations a destroy walk performs over the records `rs`:
one per finalized record, in record order. -/
def eventsOf (tds : Nat → TyDesc) (rs : List ARec) : List DropEvent :=
  (rs.filter (fun r => r.done)).map (fun r => ⟨r.td, slotStart tds r.td r.idx⟩)

/-- `ChunksWF tds cs n`: every chunk of the retired list is either a copy
chunk or parses as a record list, and `n` is the total number of finalized
records over the noncopy ones. -/
inductive ChunksWF (tds : Nat → TyDesc) : List Chunk → Nat → Prop where
  | nil : ChunksWF tds [] 0
  | copy (c : Chunk) (cs : List Chunk) (n : Nat) (hc : c.is_copy = true)
      (h : ChunksWF tds cs n) : ChunksWF tds (c :: cs) n
  | noncopy (c : Chunk) (cs : List Chunk) (n : Nat) (rs : List ARec)
      (hc : c.is_copy = false) (hr : ChunkRecs tds c.mem 0 c.fill rs)
      (h : ChunksWF tds cs n) : ChunksWF tds (c :: cs) ((eventsOf tds rs).length + n)

/-- The arena invariant: correct copy flags on the active chunks, head chunk
contents parse as `rsH`, and the retired list is well formed with `n`
finalized records. -/
structure ArenaInv (tds : Nat → TyDesc) (st : AnyArena) (rsH : List ARec) (n : Nat) : Prop where
  head_flag : st.head.is_copy = false
  copy_flag : st.copy_head.is_copy = true
  head_recs : ChunkRecs tds st.head.mem 0 st.head.fill rsH
  chunks_wf : ChunksWF tds st.chunks n

/-- `InvTotal tds st m`: the invariant holds and `m` is the total number of
initialized destructor-requiring objects currently stored in the arena. -/
def ArenaTotal (tds : Nat → TyDesc) (st : AnyArena) (m : Nat) : Prop :=
  ∃ rsH n, ArenaInv tds st rsH n ∧ (eventsOf tds rsH).length + n = m

/-- One benchmark round: `k` successful noncopy allocations, then `clear`. -/
def oneRound (td k : Nat) : List Op :=
  List.replicate k (Op.allocNoncopy none td false) ++ [Op.clearOp]

/-- `r` benchmark rounds. -/
def roundsOps (td k : Nat) : Nat → List Op
  | 0 => []
  | r + 1 => oneRound td k ++ roundsOps td k r

/-- Modelled from the spec, section 4.2 (bulk-destroy walk), for the
refinement claim C2: starting at byte offset 0, while offset < fill, read the
header as descriptor plus init flag (unpacked via the low bit), compute the
payload start by aligning past the header, invoke the destructor iff the
flag is set, and advance to the next header-aligned position past
`payload_start + size`. -/
def specWalk (tds : Nat → TyDesc) (mem : Nat → Nat) (fill : Nat) :
    Nat → Nat → List DropEvent
  | 0, _ => []
  | fuel + 1, offset =>
    if offset < fill then
      let header := un_bitpack_tydesc_ptr (mem offset)
      let desc := header.1
      let flag := header.2
      let payload_start := round_up (offset + ptrSize) (tds desc).align
      let next := round_up (payload_start + (tds desc).size) ptrAlign
      if flag then ⟨desc, payload_start⟩ :: specWalk tds mem fill fuel next
      else specWalk tds mem fill fuel next
    else []

/-! ### Concrete instances used by witnesses and counterexamples -/

/-- A descriptor table: address 2 describes a type of size 48 / align 8,
address 4 one of size 2 / align 128, anything else size 8 / align 8. -/
def tdsA : Nat → TyDesc :=
  fun t => if t = 2 then ⟨48, 8⟩ else if t = 4 then ⟨2, 128⟩ else ⟨8, 8⟩

/-- A fresh default arena. -/
def stW : AnyArena := AnyArena.new_with_size 32

/-- Three allocations, the second of which panics in its initializer. -/
def opsC1 : List Op :=
  [.allocNoncopy none 2 false, .allocNoncopy none 2 true,
   .allocCopy none 12 4, .allocNoncopy none 2 false]

/-- A size-48/align-8 allocation followed by a size-2/align-128 one. -/
def opsC9 : List Op := [.allocNoncopy none 2 false, .allocNoncopy none 4 false]

/-- A table where every descriptor is size 8 / align 8. -/
def tdsB : Nat → TyDesc := fun _ => ⟨8, 8⟩

/-- Buffer contents: header `bitpack 2 true` at offset 0, `bitpack 2 false`
at offset 16. -/
def memB : Nat → Nat := fun i => if i = 0 then 3 else if i = 16 then 2 else 0

/-- A chunk holding one finalized and one abandoned record. -/
def cB : Chunk := { cap := 64, fill := 32, is_copy := false, mem := memB }

/-- The records of `cB`. -/
def rsB : List ARec := [⟨0, 2, true⟩, ⟨16, 2, false⟩]

/-! ### Arithmetic facts about the bit manipulations -/

/-- Bits of a quotient by a power of two. -/
theorem testBit_div_pow (x k j : Nat) : (x / 2 ^ k).testBit j = x.testBit (k + j) := by
  simp [Nat.testBit_to_div_mod, Nat.div_div_eq_div_mul, ← Nat.pow_add]

/-- Bits of the mask `2 ^ w - 2 ^ k`: exactly the positions in `[k, w)`. -/
theorem testBit_mask {k w : Nat} (hk : k ≤ w) (i : Nat) :
    (2 ^ w - 2 ^ k).testBit i = (decide (k ≤ i) && decide (i < w)) := by
  have h : (2 : Nat) ^ w - 2 ^ k = (2 ^ (w - k) - 1) <<< k := by
    rw [Nat.shiftLeft_eq, Nat.sub_mul, one_mul, ← Nat.pow_add]
    congr 2
    omega
  rw [h, Nat.testBit_shiftLeft, Nat.testBit_two_pow_sub_one]
  by_cases h1 : k ≤ i <;> by_cases h2 : i < w <;>
    simp [h1, h2, ge_iff_le] <;> omega

/-- Conjunction with the mask `2 ^ w - 2 ^ k` clears the low `k` bits. -/
theorem land_mask (x : Nat) {k w : Nat} (hk : k ≤ w) (hx : x < 2 ^ w) :
    x &&& (2 ^ w - 2 ^ k) = 2 ^ k * (x / 2 ^ k) := by
  apply Nat.eq_of_testBit_eq
  intro i
  rw [Nat.testBit_land, testBit_mask hk]
  have hr : (2 : Nat) ^ k * (x / 2 ^ k) = (x / 2 ^ k) <<< k := by
    rw [Nat.shiftLeft_eq]; ring
  rw [hr, Nat.testBit_shiftLeft, testBit_div_pow]
  by_cases h1 : k ≤ i
  · by_cases h2 : i < w
    · simp [h1, h2, ge_iff_le, show k + (i - k) = i by omega]
    · have hz : x.testBit i = false :=
        Nat.testBit_lt_two_pow
          (lt_of_lt_of_le hx (Nat.pow_le_pow_right (by decide) (by omega)))
      simp [h1, h2, ge_iff_le, show k + (i - k) = i by omega, hz]
  · simp [h1, ge_iff_le]

/-- Xor of two low-bit masks is the band mask. -/
theorem xor_mask {k w : Nat} (hk : k ≤ w) :
    (2 ^ w - 1) ^^^ (2 ^ k - 1) = 2 ^ w - 2 ^ k := by
  apply Nat.eq_of_testBit_eq
  intro i
  rw [Nat.testBit_xor, Nat.testBit_two_pow_sub_one, Nat.testBit_two_pow_sub_one,
    testBit_mask hk]
  by_cases h1 : i < k <;> by_cases h2 : i < w <;> simp [h1, h2] <;> omega

/-- `round_up` with a power-of-two alignment computes the aligned ceiling,
provided the `checked_add` does not overflow. -/
theorem round_up_eq (base : Nat) {k : Nat} (hk : k ≤ 64)
    (hb : base + 2 ^ k - 1 ≤ usizeMax) :
    round_up base (2 ^ k) = 2 ^ k * ((base + 2 ^ k - 1) / 2 ^ k) := by
  have hp : 0 < (2 : Nat) ^ k := Nat.pow_pos (by decide)
  have h1 : base + (2 ^ k - 1) = base + 2 ^ k - 1 := by omega
  have h2 : usizeMax ^^^ (2 ^ k - 1) = 2 ^ 64 - 2 ^ k := xor_mask hk
  have h3 : base + 2 ^ k - 1 < 2 ^ 64 := by
    have : usizeMax < 2 ^ 64 := Nat.sub_lt (Nat.pow_pos (by decide)) (by decide)
    omega
  rw [round_up, h1, h2, land_mask _ hk h3]

/-- The aligned ceiling is at least the base. -/
theorem le_round_up (base : Nat) {k : Nat} (hk : k ≤ 64)
    (hb : base + 2 ^ k - 1 ≤ usizeMax) : base ≤ round_up base (2 ^ k) := by
  rw [round_up_eq base hk hb]
  have hp : 0 < (2 : Nat) ^ k := Nat.pow_pos (by decide)
  have h := Nat.div_add_mod (base + 2 ^ k - 1) (2 ^ k)
  have hm : (base + 2 ^ k - 1) % 2 ^ k < 2 ^ k := Nat.mod_lt _ hp
  omega

/-- The aligned ceiling overshoots by less than the alignment. -/
theorem round_up_le (base : Nat) {k : Nat} (hk : k ≤ 64)
    (hb : base + 2 ^ k - 1 ≤ usizeMax) :
    round_up base (2 ^ k) ≤ base + 2 ^ k - 1 := by
  rw [round_up_eq base hk hb]
  have hp : 0 < (2 : Nat) ^ k := Nat.pow_pos (by decide)
  have h := Nat.div_add_mod (base + 2 ^ k - 1) (2 ^ k)
  have hm : (base + 2 ^ k - 1) % 2 ^ k < 2 ^ k := Nat.mod_lt _ hp
  omega

/-- The aligned ceiling is aligned. -/
theorem dvd_round_up (base : Nat) {k : Nat} (hk : k ≤ 64)
    (hb : base + 2 ^ k - 1 ≤ usizeMax) : 2 ^ k ∣ round_up base (2 ^ k) := by
  rw [round_up_eq base hk hb]
  exact Dvd.intro _ rfl

/-- Setting the low bit of an even number adds one. -/
theorem lor_one_of_even {p : Nat} (hp : p % 2 = 0) : p ||| 1 = p + 1 := by
  apply Nat.eq_of_testBit_eq
  intro i
  rw [Nat.testBit_lor]
  cases i with
  | zero =>
    simp [Nat.testBit_zero]
    omega
  | succ j =>
    rw [Nat.testBit_succ, Nat.testBit_succ, Nat.testBit_succ]
    have h2 : (p + 1) / 2 = p / 2 := by omega
    simp [h2, Nat.zero_testBit]

/-- Unpacking a packed header recovers the descriptor address and the flag:
the descriptor address has a clear low bit and fits in `usize`. -/
theorem un_bitpack_bitpack {p : Nat} (b : Bool) (hp : p % 2 = 0)
    (hlt : p + 1 ≤ usizeMax) :
    un_bitpack_tydesc_ptr (bitpack_tydesc_ptr p b) = (p, b) := by
  have hx : usizeMax ^^^ 1 = 2 ^ 64 - 2 := by
    have h := xor_mask (k := 1) (w := 64) (by decide)
    norm_num at h
    exact h
  have hp64 : p + 1 < 2 ^ 64 := by
    have h1 : usizeMax < 2 ^ 64 := Nat.sub_lt (Nat.pow_pos (by decide)) (by decide)
    omega
  have hmask : ∀ x : Nat, x < 2 ^ 64 → x &&& (2 ^ 64 - 2) = 2 * (x / 2) := by
    intro x hxlt
    have h := land_mask x (k := 1) (w := 64) (by decide) hxlt
    norm_num at h
    exact h
  have hz : p ||| 0 = p := by
    apply Nat.eq_of_testBit_eq
    intro i
    rw [Nat.testBit_lor, Nat.zero_testBit, Bool.or_false]
  cases b with
  | false =>
    have hb : bitpack_tydesc_ptr p false = p := by
      simp [bitpack_tydesc_ptr, hz]
    rw [hb]
    simp only [un_bitpack_tydesc_ptr, hx]
    rw [hmask p (by omega), Nat.and_one_is_mod, hp]
    have h2 : 2 * (p / 2) = p := by omega
    simp [h2]
  | true =>
    have hb : bitpack_tydesc_ptr p true = p + 1 := by
      simp [bitpack_tydesc_ptr, lor_one_of_even hp]
    rw [hb]
    simp only [un_bitpack_tydesc_ptr, hx]
    rw [hmask (p + 1) hp64, Nat.and_one_is_mod]
    have h1 : 2 * ((p + 1) / 2) = p := by omega
    have h2 : (p + 1) % 2 = 1 := by omega
    simp [h1, h2]

/-- `bitsAux` with enough fuel computes the bit length: the input is below
`2 ^ bitsAux`, and (for nonzero input) `2 ^ bitsAux` is at most twice it. -/
theorem bitsAux_spec : ∀ fuel n, n ≤ fuel →
    n < 2 ^ bitsAux fuel n ∧ (n = 0 ∨ 2 ^ bitsAux fuel n ≤ 2 * n) := by
  intro fuel
  induction fuel with
  | zero =>
    intro n hn
    have : n = 0 := by omega
    subst this
    simp [bitsAux]
  | succ f ih =>
    intro n hn
    by_cases h0 : n = 0
    · subst h0; simp [bitsAux]
    · have hrec := ih (n / 2) (by omega)
      have hb : bitsAux (f + 1) n = bitsAux f (n / 2) + 1 := by
        simp [bitsAux, h0]
      rw [hb]
      rw [pow_succ]
      constructor
      · have h1 := hrec.1
        omega
      · right
        rcases hrec.2 with h2 | h2
        · have hn1 : n = 1 := by omega
          subst hn1
          have hz : bitsAux f (1 / 2) = 0 := by
            cases f <;> rfl
          rw [hz]
          norm_num
        · omega

/-- `next_power_of_two` bounds its argument from above. -/
theorem le_next_power_of_two (n : Nat) : n ≤ next_power_of_two n := by
  unfold next_power_of_two
  by_cases h : n ≤ 1
  · rw [if_pos h]; omega
  · rw [if_neg h]
    have hs := bitsAux_spec (n - 1) (n - 1) le_rfl
    omega

/-- `next_power_of_two` returns a power of two. -/
theorem next_power_of_two_isPow (n : Nat) : ∃ b, next_power_of_two n = 2 ^ b := by
  unfold next_power_of_two
  by_cases h : n ≤ 1
  · refine ⟨0, ?_⟩
    rw [if_pos h]
    norm_num
  · exact ⟨_, by rw [if_neg h]⟩

/-- `next_power_of_two` is the least power of two above its argument. -/
theorem next_power_of_two_min (n j : Nat) (h : n ≤ 2 ^ j) :
    next_power_of_two n ≤ 2 ^ j := by
  unfold next_power_of_two
  by_cases h1 : n ≤ 1
  · rw [if_pos h1]
    exact Nat.one_le_two_pow
  · rw [if_neg h1]
    have hs := bitsAux_spec (n - 1) (n - 1) le_rfl
    rcases hs.2 with h2 | h2
    · omega
    · apply Nat.pow_le_pow_right (by decide)
      by_contra hcon
      push_neg at hcon
      have hj : j + 1 ≤ bitsAux (n - 1) (n - 1) := hcon
      have : (2 : Nat) ^ (j + 1) ≤ 2 ^ bitsAux (n - 1) (n - 1) :=
        Nat.pow_le_pow_right (by decide) hj
      rw [pow_succ] at this
      omega

/-- A number passing the executable power-of-two test is a power of two. -/
theorem isPow2_spec {n : Nat} (h : isPow2 n = true) : ∃ k, n = 2 ^ k := by
  unfold isPow2 at h
  have he : n = next_power_of_two n := eq_of_beq h
  rw [he]
  exact next_power_of_two_isPow n

/-! ### Chunk contents: the record structure a noncopy chunk's bytes encode -/

theorem eventsOf_append (tds : Nat → TyDesc) (rs1 rs2 : List ARec) :
    eventsOf tds (rs1 ++ rs2) = eventsOf tds rs1 ++ eventsOf tds rs2 := by
  simp [eventsOf]

theorem ChunkRecs.le {tds mem idx fill rs} (h : ChunkRecs tds mem idx fill rs) :
    idx ≤ fill := by
  cases h with
  | nil => exact le_rfl
  | cons _ _ _ _ _ hlt => exact le_of_lt hlt

theorem ChunkRecs.length_le {tds mem idx fill rs} (h : ChunkRecs tds mem idx fill rs) :
    idx + rs.length ≤ fill := by
  induction h with
  | nil => simp
  | cons idx fill td done rs hlt hmem heven hmax hpay hsn hrest ih =>
    have hps : ptrSize = 8 := rfl
    simp only [List.length_cons]
    omega

theorem ChunkRecs.congr {tds mem idx fill rs} (h : ChunkRecs tds mem idx fill rs)
    (mem2 : Nat → Nat) (hag : ∀ j, j < fill → mem2 j = mem j) :
    ChunkRecs tds mem2 idx fill rs := by
  induction h with
  | nil f => exact .nil f
  | cons idx fill td done rs hlt hmem heven hmax hpay hsn hrest ih =>
    exact .cons idx fill td done rs hlt ((hag idx hlt).trans hmem) heven hmax hpay hsn (ih hag)

theorem ChunkRecs.eq_nil {tds mem idx fill rs} (h : ChunkRecs tds mem idx fill rs)
    (hle : fill ≤ idx) : rs = [] := by
  cases h with
  | nil => rfl
  | cons _ _ _ _ _ hlt => omega

theorem ChunkRecs.extend {tds mem idx fill rs} (h : ChunkRecs tds mem idx fill rs) :
    ∀ (td : Nat) (done : Bool) (fill2 : Nat),
      mem fill = bitpack_tydesc_ptr td done → td % 2 = 0 → td + 1 ≤ usizeMax →
      fill + ptrSize ≤ slotStart tds td fill →
      slotStart tds td fill ≤ slotNext tds td fill →
      fill2 = slotNext tds td fill →
      ChunkRecs tds mem idx fill2 (rs ++ [⟨fill, td, done⟩]) := by
  induction h with
  | nil f =>
    intro td done fill2 hmem heven hmax hpay hsn hf2
    have hps : ptrSize = 8 := rfl
    have hfill2 : f < fill2 := by omega
    subst hf2
    exact .cons f _ td done [] hfill2 hmem heven hmax hpay hsn (.nil _)
  | cons idx fill td' done' rs' hlt hmem' heven' hmax' hpay' hsn' hrest ih =>
    intro td done fill2 hmem heven hmax hpay hsn hf2
    have hps : ptrSize = 8 := rfl
    have hfill2 : fill < fill2 := by omega
    exact .cons idx fill2 td' done' _ (lt_trans hlt hfill2) hmem' heven' hmax' hpay' hsn'
      (ih td done fill2 hmem heven hmax hpay hsn hf2)

theorem destroyLoop_eq_events {tds mem idx fill rs} (h : ChunkRecs tds mem idx fill rs) :
    ∀ fuel, rs.length ≤ fuel → destroyLoop tds mem fill fuel idx = eventsOf tds rs := by
  induction h with
  | nil f =>
    intro fuel _
    cases fuel with
    | zero => rfl
    | succ fu => simp [destroyLoop, eventsOf]
  | cons idx fill td done rs hlt hmem heven hmax hpay hsn hrest ih =>
    intro fuel hfuel
    cases fuel with
    | zero => simp at hfuel
    | succ fu =>
      have hun : un_bitpack_tydesc_ptr (mem idx) = (td, done) := by
        rw [hmem]
        exact un_bitpack_bitpack done heven hmax
      have hrec := ih fu (by simpa using hfuel)
      have hfold : round_up (round_up (idx + ptrSize) (tds td).align + (tds td).size) ptrAlign
          = slotNext tds td idx := rfl
      cases done with
      | false =>
        simp only [destroyLoop, if_pos hlt, hun]
        simp only [if_neg (by simp : ¬(false = true))]
        rw [hfold, hrec]
        simp [eventsOf]
      | true =>
        simp only [destroyLoop, if_pos hlt, hun, if_true]
        rw [hfold, hrec]
        simp [eventsOf, slotStart]

theorem Chunk.destroy_eq (tds : Nat → TyDesc) (c : Chunk) (rs : List ARec)
    (h : ChunkRecs tds c.mem 0 c.fill rs) :
    Chunk.destroy tds c = eventsOf tds rs := by
  apply destroyLoop_eq_events h
  have := h.length_le
  omega

theorem chunksEvents_length {tds cs n} (h : ChunksWF tds cs n) :
    (chunksEvents tds cs).length = n := by
  induction h with
  | nil => rfl
  | copy c cs n hc h ih => simp [chunksEvents, hc, ih]
  | noncopy c cs n rs hc hr h ih =>
    simp [chunksEvents, hc, Chunk.destroy_eq tds c rs hr, ih]

theorem ChunksWF.push_copy {tds cs n} (h : ChunksWF tds cs n) (c : Chunk)
    (hc : c.is_copy = true) : ChunksWF tds (cs ++ [c]) n := by
  induction h with
  | nil => exact .copy c [] 0 hc .nil
  | copy c' cs' n' hc' h' ih => exact .copy c' _ _ hc' ih
  | noncopy c' cs' n' rs hc' hr h' ih => exact .noncopy c' _ _ rs hc' hr ih

theorem ChunksWF.push_noncopy {tds cs n} (h : ChunksWF tds cs n) (c : Chunk)
    (rs : List ARec) (hc : c.is_copy = false)
    (hr : ChunkRecs tds c.mem 0 c.fill rs) :
    ChunksWF tds (cs ++ [c]) (n + (eventsOf tds rs).length) := by
  induction h with
  | nil =>
    have h0 : ChunksWF tds [c] ((eventsOf tds rs).length + 0) :=
      .noncopy c [] 0 rs hc hr .nil
    simpa [Nat.add_comm] using h0
  | copy c' cs' n' hc' h' ih => exact .copy c' _ _ hc' ih
  | noncopy c' cs' n' rs' hc' hr' h' ih =>
    have h0 : ChunksWF tds ((c' :: cs') ++ [c]) ((eventsOf tds rs').length + (n' + (eventsOf tds rs).length)) :=
      ChunksWF.noncopy c' _ _ rs' hc' hr' ih
    simpa [Nat.add_assoc] using h0

theorem arenaTotal_new (tds : Nat → TyDesc) (sz : Nat) :
    ArenaTotal tds (AnyArena.new_with_size sz) 0 := by
  refine ⟨[], 0, ⟨rfl, rfl, .nil 0, .nil⟩, rfl⟩

/-! ### Branch shapes of the allocation paths -/

theorem alloc_copy_inner_nogrow (inP : Option Nat) (st : AnyArena) (n a : Nat)
    (h : ¬ round_up st.copy_head.fill a + n > st.copy_head.cap) :
    alloc_copy_inner inP st n a =
      { st := { st with
                copy_head := { st.copy_head with fill := round_up st.copy_head.fill a + n } }
        start := round_up st.copy_head.fill a
        replaced := false } := by
  simp only [alloc_copy_inner, if_neg h]

theorem alloc_copy_inner_inplace (newCap : Nat) (st : AnyArena) (n a : Nat)
    (h : round_up st.copy_head.fill a + n > st.copy_head.cap) :
    alloc_copy_inner (some newCap) st n a =
      { st := { st with
                copy_head := { st.copy_head with
                               cap := newCap
                               fill := round_up st.copy_head.fill a + n } }
        start := round_up st.copy_head.fill a
        replaced := false } := by
  simp only [alloc_copy_inner, if_pos h, alloc_grow]
  simp

theorem alloc_copy_inner_replace (st : AnyArena) (n a : Nat)
    (h : round_up st.copy_head.fill a + n > st.copy_head.cap) :
    alloc_copy_inner none st n a =
      { st := { st with
                copy_head :=
                  { cap := next_power_of_two
                      (max (round_up st.copy_head.fill a + n - st.copy_head.fill)
                        st.copy_head.cap + 1)
                    fill := n
                    is_copy := true
                    mem := fun _ => 0 }
                chunks := st.chunks ++
                  (if st.copy_head.fill ≠ 0 then [st.copy_head] else []) }
        start := 0
        replaced := true } := by
  simp only [alloc_copy_inner, if_pos h, alloc_grow]
  by_cases hf : st.copy_head.fill ≠ 0 <;> simp [hf, Chunk.new]

theorem alloc_noncopy_inner_nogrow (inP : Option Nat) (st : AnyArena) (n a : Nat)
    (h : ¬ round_up (round_up (st.head.fill + ptrSize) a + n) ptrAlign > st.head.cap) :
    alloc_noncopy_inner inP st n a =
      { st := { st with
                head := { st.head with
                          fill := round_up (round_up (st.head.fill + ptrSize) a + n) ptrAlign } }
        tydesc_start := st.head.fill
        start := round_up (st.head.fill + ptrSize) a
        replaced := false } := by
  simp only [alloc_noncopy_inner, if_neg h]

theorem alloc_noncopy_inner_inplace (newCap : Nat) (st : AnyArena) (n a : Nat)
    (h : round_up (round_up (st.head.fill + ptrSize) a + n) ptrAlign > st.head.cap) :
    alloc_noncopy_inner (some newCap) st n a =
      { st := { st with
                head := { st.head with
                          cap := newCap
                          fill := round_up (round_up (st.head.fill + ptrSize) a + n) ptrAlign } }
        tydesc_start := st.head.fill
        start := round_up (st.head.fill + ptrSize) a
        replaced := false } := by
  simp only [alloc_noncopy_inner, if_pos h, alloc_grow]
  simp

theorem alloc_noncopy_inner_replace (st : AnyArena) (n a : Nat)
    (h : round_up (round_up (st.head.fill + ptrSize) a + n) ptrAlign > st.head.cap) :
    alloc_noncopy_inner none st n a =
      { st := { st with
                head :=
                  { cap := next_power_of_two
                      (max (round_up (round_up (st.head.fill + ptrSize) a + n) ptrAlign
                              - st.head.fill)
                        st.head.cap + 1)
                    fill := round_up (round_up ptrSize a + n) ptrAlign
                    is_copy := false
                    mem := fun _ => 0 }
                chunks := st.chunks ++
                  (if st.head.fill ≠ 0 then [st.head] else []) }
        tydesc_start := 0
        start := round_up ptrSize a
        replaced := true } := by
  simp only [alloc_noncopy_inner, if_pos h, alloc_grow]
  by_cases hf : st.head.fill ≠ 0 <;> simp [hf, Chunk.new]

/-! ### Preservation of the arena invariant -/

theorem le_round_up_of (base : Nat) {al : Nat} (k : Nat) (hk : k ≤ 64) (ha : al = 2 ^ k)
    (hb : base + al - 1 ≤ usizeMax) : base ≤ round_up base al := by
  subst ha
  exact le_round_up base hk hb

theorem round_up_le_of (base : Nat) {al : Nat} (k : Nat) (hk : k ≤ 64) (ha : al = 2 ^ k)
    (hb : base + al - 1 ≤ usizeMax) : round_up base al ≤ base + al - 1 := by
  subst ha
  exact round_up_le base hk hb

theorem dvd_round_up_of (base : Nat) {al : Nat} (k : Nat) (hk : k ≤ 64) (ha : al = 2 ^ k)
    (hb : base + al - 1 ≤ usizeMax) : al ∣ round_up base al := by
  subst ha
  exact dvd_round_up base hk hb

theorem eight_eq_pow : (8 : Nat) = 2 ^ 3 := by norm_num

theorem arenaTotal_copy_inner (tds : Nat → TyDesc) (inP : Option Nat) (st : AnyArena)
    (n a m : Nat) (h : ArenaTotal tds st m) :
    ArenaTotal tds (alloc_copy_inner inP st n a).st m := by
  obtain ⟨rsH, kn, hi, hm⟩ := h
  by_cases hcap : round_up st.copy_head.fill a + n > st.copy_head.cap
  · rcases inP with _ | newCap
    · rw [alloc_copy_inner_replace st n a hcap]
      refine ⟨rsH, kn, ⟨hi.head_flag, rfl, hi.head_recs, ?_⟩, hm⟩
      by_cases hf : st.copy_head.fill ≠ 0
      · rw [if_pos hf]
        exact hi.chunks_wf.push_copy st.copy_head hi.copy_flag
      · rw [if_neg hf]
        simpa using hi.chunks_wf
    · rw [alloc_copy_inner_inplace newCap st n a hcap]
      exact ⟨rsH, kn, ⟨hi.head_flag, hi.copy_flag, hi.head_recs, hi.chunks_wf⟩, hm⟩
  · rw [alloc_copy_inner_nogrow inP st n a hcap]
    exact ⟨rsH, kn, ⟨hi.head_flag, hi.copy_flag, hi.head_recs, hi.chunks_wf⟩, hm⟩

theorem arenaTotal_bytes (tds : Nat → TyDesc) (inP : Option Nat) (st : AnyArena)
    (len m : Nat) (h : ArenaTotal tds st m) :
    ArenaTotal tds (step tds st (Op.allocBytes inP len)).1 m := by
  simp only [step]
  by_cases hle : st.copy_head.fill + len ≤ usizeMax
  · have hb : alloc_bytes inP st len =
        some ((alloc_copy_inner inP st len 1).st, (alloc_copy_inner inP st len 1).start, len) := by
      simp only [alloc_bytes, if_pos hle]
    rw [hb]
    exact arenaTotal_copy_inner tds inP st len 1 m h
  · have hb : alloc_bytes inP st len = none := by
      simp only [alloc_bytes, if_neg hle]
    rw [hb]
    exact h

theorem arenaTotal_clear (tds : Nat → TyDesc) (st : AnyArena) (m : Nat)
    (h : ArenaTotal tds st m) :
    ((AnyArena.clear tds st).2).length = m ∧
      ArenaTotal tds (AnyArena.clear tds st).1 0 := by
  obtain ⟨rsH, kn, hi, hm⟩ := h
  constructor
  · show (Chunk.destroy tds st.head ++ chunksEvents tds st.chunks).length = m
    rw [List.length_append, Chunk.destroy_eq tds st.head rsH hi.head_recs,
      chunksEvents_length hi.chunks_wf]
    exact hm
  · exact ⟨[], 0, ⟨hi.head_flag, hi.copy_flag, .nil 0, .nil⟩, rfl⟩

theorem arenaTotal_dropAll (tds : Nat → TyDesc) (st : AnyArena) (m : Nat)
    (h : ArenaTotal tds st m) : (AnyArena.dropAll tds st).length = m := by
  obtain ⟨rsH, kn, hi, hm⟩ := h
  show (Chunk.destroy tds st.head ++ chunksEvents tds st.chunks).length = m
  rw [List.length_append, Chunk.destroy_eq tds st.head rsH hi.head_recs,
    chunksEvents_length hi.chunks_wf]
  exact hm

theorem arenaTotal_noncopy (tds : Nat → TyDesc) (inP : Option Nat) (td : Nat)
    (panics : Bool) (st : AnyArena) (m : Nat)
    (heven : td % 2 = 0) (hmax : td + 1 ≤ usizeMax)
    (hpow : isPow2 (tds td).align = true)
    (hbound : st.head.fill + (tds td).align + (tds td).size + 16 ≤ usizeMax)
    (h : ArenaTotal tds st m) :
    ArenaTotal tds (alloc_noncopy tds inP td panics st).1
      (m + (if panics then 0 else 1)) := by
  obtain ⟨rsH, kn, hi, hm⟩ := h
  obtain ⟨k, hk⟩ := isPow2_spec hpow
  have hps : ptrSize = 8 := rfl
  have hpa : ptrAlign = 8 := rfl
  have hapos : 0 < (tds td).align := by
    rw [hk]; exact Nat.pow_pos (by decide)
  have hk64 : k ≤ 64 := by
    by_contra hcon
    push_neg at hcon
    have h1 : (2 : Nat) ^ 64 < 2 ^ k :=
      (Nat.pow_lt_pow_iff_right (by decide)).mpr (by omega)
    have h2 : usizeMax < 2 ^ 64 := Nat.sub_lt (Nat.pow_pos (by decide)) (by decide)
    omega
  -- the slot placed at the current fill cursor
  have ha1 : st.head.fill + ptrSize ≤ round_up (st.head.fill + ptrSize) (tds td).align :=
    le_round_up_of _ k hk64 hk (by omega)
  have ha2 : round_up (st.head.fill + ptrSize) (tds td).align
      ≤ st.head.fill + ptrSize + (tds td).align - 1 :=
    round_up_le_of _ k hk64 hk (by omega)
  have hb1 : round_up (st.head.fill + ptrSize) (tds td).align + (tds td).size
      ≤ round_up (round_up (st.head.fill + ptrSize) (tds td).align + (tds td).size) ptrAlign :=
    le_round_up_of _ 3 (by norm_num) (by rw [hpa, eight_eq_pow]) (by rw [hpa]; omega)
  -- the slot placed at offset 0 of a replacement chunk
  have hc1 : ptrSize ≤ round_up ptrSize (tds td).align :=
    le_round_up_of _ k hk64 hk (by omega)
  have hc2 : round_up ptrSize (tds td).align ≤ ptrSize + (tds td).align - 1 :=
    round_up_le_of _ k hk64 hk (by omega)
  have hd1 : round_up ptrSize (tds td).align + (tds td).size
      ≤ round_up (round_up ptrSize (tds td).align + (tds td).size) ptrAlign :=
    le_round_up_of _ 3 (by norm_num) (by rw [hpa, eight_eq_pow]) (by rw [hpa]; omega)
  have hslot : slotStart tds td st.head.fill
      = round_up (st.head.fill + ptrSize) (tds td).align := rfl
  have hnext : slotNext tds td st.head.fill
      = round_up (round_up (st.head.fill + ptrSize) (tds td).align + (tds td).size) ptrAlign :=
    rfl
  have hz1 : slotStart tds td 0 = round_up ptrSize (tds td).align := by
    simp [slotStart]
  have hz2 : slotNext tds td 0
      = round_up (round_up ptrSize (tds td).align + (tds td).size) ptrAlign := by
    simp [slotNext, slotStart]
  by_cases hcap : round_up (round_up (st.head.fill + ptrSize) (tds td).align + (tds td).size)
      ptrAlign > st.head.cap
  · rcases inP with _ | newCap
    · -- replacement chunk installed
      simp only [alloc_noncopy, alloc_noncopy_inner_replace st (tds td).size (tds td).align hcap]
      cases panics with
      | true =>
        refine ⟨[⟨0, td, false⟩], kn + (eventsOf tds rsH).length, ⟨rfl, hi.copy_flag, ?_, ?_⟩, ?_⟩
        · refine .cons 0 _ td false [] ?_ ?_ heven hmax ?_ ?_ ?_
          · show 0 < round_up (round_up ptrSize (tds td).align + (tds td).size) ptrAlign
            omega
          · simp [writeWord]
          · rw [hz1]; omega
          · rw [hz1, hz2]; omega
          · rw [hz2]
            exact .nil _
        · by_cases hf : st.head.fill ≠ 0
          · rw [if_pos hf]
            exact hi.chunks_wf.push_noncopy st.head rsH hi.head_flag hi.head_recs
          · rw [if_neg hf]
            push_neg at hf
            have hnilr : rsH = [] := hi.head_recs.eq_nil (by omega)
            subst hnilr
            simpa using hi.chunks_wf
        · simp [eventsOf] at hm ⊢
          omega
      | false =>
        refine ⟨[⟨0, td, true⟩], kn + (eventsOf tds rsH).length, ⟨rfl, hi.copy_flag, ?_, ?_⟩, ?_⟩
        · refine .cons 0 _ td true [] ?_ ?_ heven hmax ?_ ?_ ?_
          · show 0 < round_up (round_up ptrSize (tds td).align + (tds td).size) ptrAlign
            omega
          · simp [writeWord]
          · rw [hz1]; omega
          · rw [hz1, hz2]; omega
          · rw [hz2]
            exact .nil _
        · by_cases hf : st.head.fill ≠ 0
          · rw [if_pos hf]
            exact hi.chunks_wf.push_noncopy st.head rsH hi.head_flag hi.head_recs
          · rw [if_neg hf]
            push_neg at hf
            have hnilr : rsH = [] := hi.head_recs.eq_nil (by omega)
            subst hnilr
            simpa using hi.chunks_wf
        · simp [eventsOf] at hm ⊢
          omega
    · -- in-place growth
      simp only [alloc_noncopy,
        alloc_noncopy_inner_inplace newCap st (tds td).size (tds td).align hcap]
      cases panics with
      | true =>
        refine ⟨rsH ++ [⟨st.head.fill, td, false⟩], kn,
          ⟨hi.head_flag, hi.copy_flag, ?_, hi.chunks_wf⟩, ?_⟩
        · refine (hi.head_recs.congr _ ?_).extend td false _ ?_ heven hmax ?_ ?_ ?_
          · intro j hj
            have hne : j ≠ st.head.fill := by omega
            simp [writeWord, hne]
          · simp [writeWord]
          · rw [hslot]; omega
          · rw [hslot, hnext]; omega
          · rfl
        · rw [eventsOf_append]
          simp [eventsOf] at hm ⊢
          omega
      | false =>
        refine ⟨rsH ++ [⟨st.head.fill, td, true⟩], kn,
          ⟨hi.head_flag, hi.copy_flag, ?_, hi.chunks_wf⟩, ?_⟩
        · refine (hi.head_recs.congr _ ?_).extend td true _ ?_ heven hmax ?_ ?_ ?_
          · intro j hj
            have hne : j ≠ st.head.fill := by omega
            simp [writeWord, hne]
          · simp [writeWord]
          · rw [hslot]; omega
          · rw [hslot, hnext]; omega
          · rfl
        · rw [eventsOf_append]
          simp [eventsOf] at hm ⊢
          omega
  · -- the slot fits in the current head chunk
    simp only [alloc_noncopy,
      alloc_noncopy_inner_nogrow inP st (tds td).size (tds td).align hcap]
    cases panics with
    | true =>
      refine ⟨rsH ++ [⟨st.head.fill, td, false⟩], kn,
        ⟨hi.head_flag, hi.copy_flag, ?_, hi.chunks_wf⟩, ?_⟩
      · refine (hi.head_recs.congr _ ?_).extend td false _ ?_ heven hmax ?_ ?_ ?_
        · intro j hj
          have hne : j ≠ st.head.fill := by omega
          simp [writeWord, hne]
        · simp [writeWord]
        · rw [hslot]; omega
        · rw [hslot, hnext]; omega
        · rfl
      · rw [eventsOf_append]
        simp [eventsOf] at hm ⊢
        omega
    | false =>
      refine ⟨rsH ++ [⟨st.head.fill, td, true⟩], kn,
        ⟨hi.head_flag, hi.copy_flag, ?_, hi.chunks_wf⟩, ?_⟩
      · refine (hi.head_recs.congr _ ?_).extend td true _ ?_ heven hmax ?_ ?_ ?_
        · intro j hj
          have hne : j ≠ st.head.fill := by omega
          simp [writeWord, hne]
        · simp [writeWord]
        · rw [hslot]; omega
        · rw [hslot, hnext]; omega
        · rfl
      · rw [eventsOf_append]
        simp [eventsOf] at hm ⊢
        omega

/-! ### Runs of calls -/

theorem run_noClear (tds : Nat → TyDesc) :
    ∀ (ops : List Op) (st : AnyArena) (m : Nat), noClear ops = true →
      safeOps tds st ops = true → ArenaTotal tds st m →
      ArenaTotal tds (run tds st ops).1 (m + countSucc ops) ∧ (run tds st ops).2 = [] := by
  intro ops
  induction ops with
  | nil =>
    intro st m _ _ h
    constructor
    · simpa [run, countSucc] using h
    · rfl
  | cons op ops ih =>
    intro st m hnc hsafe h
    have hs1 : opSafe tds st op = true ∧ safeOps tds (step tds st op).1 ops = true := by
      simpa [safeOps, Bool.and_eq_true] using hsafe
    cases op with
    | clearOp => simp [noClear] at hnc
    | allocCopy inP n a =>
      have hstep : ArenaTotal tds (step tds st (.allocCopy inP n a)).1 m := by
        simp only [step, alloc_copy]
        exact arenaTotal_copy_inner tds inP st n a m h
      have hrec := ih (step tds st (.allocCopy inP n a)).1 m
        (by simpa [noClear] using hnc) hs1.2 hstep
      have hc : countSucc (Op.allocCopy inP n a :: ops) = countSucc ops := rfl
      constructor
      · rw [hc]
        simpa [run] using hrec.1
      · simp only [run]
        rw [hrec.2]
        simp [step]
    | allocBytes inP len =>
      have hstep : ArenaTotal tds (step tds st (.allocBytes inP len)).1 m :=
        arenaTotal_bytes tds inP st len m h
      have hrec := ih (step tds st (.allocBytes inP len)).1 m
        (by simpa [noClear] using hnc) hs1.2 hstep
      have hc : countSucc (Op.allocBytes inP len :: ops) = countSucc ops := rfl
      constructor
      · rw [hc]
        simpa [run] using hrec.1
      · simp only [run]
        rw [hrec.2]
        simp [step]
    | allocNoncopy inP td p =>
      have hsdec := hs1.1
      simp only [opSafe, Bool.and_eq_true, beq_iff_eq, decide_eq_true_eq] at hsdec
      obtain ⟨⟨⟨heven, hmax⟩, hpow⟩, hbound⟩ := hsdec
      have hstep : ArenaTotal tds (step tds st (.allocNoncopy inP td p)).1
          (m + (if p then 0 else 1)) := by
        simp only [step]
        exact arenaTotal_noncopy tds inP td p st m heven hmax hpow hbound h
      have hrec := ih (step tds st (.allocNoncopy inP td p)).1 (m + (if p then 0 else 1))
        (by simpa [noClear] using hnc) hs1.2 hstep
      have harith : m + (if p then 0 else 1) + countSucc ops
          = m + countSucc (Op.allocNoncopy inP td p :: ops) := by
        cases p <;> simp [countSucc] <;> omega
      constructor
      · rw [← harith]
        simpa [run] using hrec.1
      · simp only [run]
        rw [hrec.2]
        simp [step]

theorem run_append (tds : Nat → TyDesc) :
    ∀ (l1 l2 : List Op) (st : AnyArena),
      run tds st (l1 ++ l2)
        = ((run tds (run tds st l1).1 l2).1,
           (run tds st l1).2 ++ (run tds (run tds st l1).1 l2).2) := by
  intro l1
  induction l1 with
  | nil => intro l2 st; simp [run]
  | cons op l1 ih =>
    intro l2 st
    simp [List.cons_append, run, ih, List.append_assoc]

theorem safeOps_append (tds : Nat → TyDesc) :
    ∀ (l1 l2 : List Op) (st : AnyArena), safeOps tds st (l1 ++ l2) = true →
      safeOps tds st l1 = true ∧ safeOps tds (run tds st l1).1 l2 = true := by
  intro l1
  induction l1 with
  | nil => intro l2 st h; exact ⟨rfl, by simpa [run] using h⟩
  | cons op l1 ih =>
    intro l2 st h
    have h2 : opSafe tds st op = true ∧ safeOps tds (step tds st op).1 (l1 ++ l2) = true := by
      simpa [safeOps, Bool.and_eq_true] using h
    have h3 := ih l2 (step tds st op).1 h2.2
    refine ⟨?_, ?_⟩
    · simp [safeOps, Bool.and_eq_true, h2.1, h3.1]
    · simpa [run] using h3.2

theorem noClear_replicate (op : Op) (hop : op ≠ Op.clearOp) (k : Nat) :
    noClear (List.replicate k op) = true := by
  induction k with
  | zero => rfl
  | succ k ih =>
    cases op <;> simp_all [List.replicate, noClear]

theorem countSucc_replicate_noncopy (inP : Option Nat) (td : Nat) (k : Nat) :
    countSucc (List.replicate k (Op.allocNoncopy inP td false)) = k := by
  induction k with
  | zero => rfl
  | succ k ih => simp [List.replicate, countSucc, ih]

theorem one_round_spec (tds : Nat → TyDesc) (td k : Nat) (st : AnyArena)
    (h : ArenaTotal tds st 0) (hsafe : safeOps tds st (oneRound td k) = true) :
    (run tds st (oneRound td k)).2.length = k ∧
      ArenaTotal tds (run tds st (oneRound td k)).1 0 := by
  have hsp := safeOps_append tds (List.replicate k (Op.allocNoncopy none td false))
    [Op.clearOp] st (by simpa [oneRound] using hsafe)
  have hrun := run_noClear tds (List.replicate k (Op.allocNoncopy none td false)) st 0
    (noClear_replicate _ (by simp) k) hsp.1 h
  rw [countSucc_replicate_noncopy, Nat.zero_add] at hrun
  have hclear := arenaTotal_clear tds
    (run tds st (List.replicate k (Op.allocNoncopy none td false))).1 k hrun.1
  have happ := run_append tds (List.replicate k (Op.allocNoncopy none td false))
    [Op.clearOp] st
  rw [oneRound, happ]
  have hrc : run tds (run tds st (List.replicate k (Op.allocNoncopy none td false))).1
      [Op.clearOp]
      = ((AnyArena.clear tds (run tds st (List.replicate k (Op.allocNoncopy none td false))).1).1,
         (AnyArena.clear tds (run tds st (List.replicate k (Op.allocNoncopy none td false))).1).2
           ++ []) := by
    simp [run, step]
  rw [hrc]
  constructor
  · simp [hrun.2, hclear.1]
  · simpa using hclear.2

theorem rounds_spec (tds : Nat → TyDesc) (td k : Nat) :
    ∀ (r : Nat) (st : AnyArena), ArenaTotal tds st 0 →
      safeOps tds st (roundsOps td k r) = true →
      (run tds st (roundsOps td k r)).2.length = r * k ∧
        ArenaTotal tds (run tds st (roundsOps td k r)).1 0 := by
  intro r
  induction r with
  | zero =>
    intro st h _
    exact ⟨by simp [roundsOps, run], h⟩
  | succ r ih =>
    intro st h hsafe
    have hsp := safeOps_append tds (oneRound td k) (roundsOps td k r) st
      (by simpa [roundsOps] using hsafe)
    have h1 := one_round_spec tds td k st h hsp.1
    have h2 := ih (run tds st (oneRound td k)).1 h1.2 hsp.2
    have happ := run_append tds (oneRound td k) (roundsOps td k r) st
    rw [show roundsOps td k (r + 1) = oneRound td k ++ roundsOps td k r from rfl, happ]
    constructor
    · simp [h1.1, h2.1]
      ring
    · exact h2.2

/-! ### Order of the destroy walk -/

theorem destroyLoop_eq_specWalk (tds : Nat → TyDesc) (mem : Nat → Nat) (fill : Nat) :
    ∀ (fuel idx : Nat), destroyLoop tds mem fill fuel idx = specWalk tds mem fill fuel idx := by
  intro fuel
  induction fuel with
  | zero => intro idx; rfl
  | succ fu ih =>
    intro idx
    simp only [destroyLoop, specWalk, ih]

theorem ChunkRecs.lower {tds mem idx fill rs} (h : ChunkRecs tds mem idx fill rs) :
    ∀ r ∈ rs, idx ≤ r.idx := by
  induction h with
  | nil => simp
  | cons idx fill td done rs hlt hmem heven hmax hpay hsn hrest ih =>
    intro r hr
    have hps : ptrSize = 8 := rfl
    rcases List.mem_cons.mp hr with hr | hr
    · subst hr; exact le_rfl
    · have := ih r hr
      omega

theorem ChunkRecs.pay_all {tds mem idx fill rs} (h : ChunkRecs tds mem idx fill rs) :
    ∀ r ∈ rs, r.idx + ptrSize ≤ slotStart tds r.td r.idx := by
  induction h with
  | nil => simp
  | cons idx fill td done rs hlt hmem heven hmax hpay hsn hrest ih =>
    intro r hr
    rcases List.mem_cons.mp hr with hr | hr
    · subst hr; exact hpay
    · exact ih r hr

theorem ChunkRecs.pairwise_events {tds mem idx fill rs} (h : ChunkRecs tds mem idx fill rs) :
    (eventsOf tds rs).Pairwise (fun e1 e2 => e1.payload < e2.payload) := by
  induction h with
  | nil => simp [eventsOf]
  | cons idx fill td done rs hlt hmem heven hmax hpay hsn hrest ih =>
    have hps : ptrSize = 8 := rfl
    have hlow := hrest.lower
    have hpayall := hrest.pay_all
    cases done with
    | false =>
      simpa [eventsOf] using ih
    | true =>
      have hstep : ∀ e ∈ eventsOf tds rs, slotStart tds td idx < e.payload := by
        intro e he
        simp only [eventsOf, List.mem_map, List.mem_filter] at he
        obtain ⟨r, ⟨hrmem, hrdone⟩, hre⟩ := he
        have h1 := hlow r hrmem
        have h2 := hpayall r hrmem
        have h3 : e.payload = slotStart tds r.td r.idx := by rw [← hre]
        omega
      have hpw : (eventsOf tds (⟨idx, td, true⟩ :: rs)) =
          ⟨td, slotStart tds td idx⟩ :: eventsOf tds rs := by
        simp [eventsOf]
      rw [hpw]
      exact List.Pairwise.cons hstep ih

/-! ### Reservation and alignment facts about the allocation paths -/

theorem copy_inner_fill (inP : Option Nat) (st : AnyArena) (n a : Nat) :
    (alloc_copy_inner inP st n a).st.copy_head.fill
      = (alloc_copy_inner inP st n a).start + n := by
  by_cases hcap : round_up st.copy_head.fill a + n > st.copy_head.cap
  · rcases inP with _ | c
    · rw [alloc_copy_inner_replace st n a hcap]
      simp
    · rw [alloc_copy_inner_inplace c st n a hcap]
  · rw [alloc_copy_inner_nogrow inP st n a hcap]

theorem noncopy_inner_fill (inP : Option Nat) (st : AnyArena) (n a : Nat) :
    (alloc_noncopy_inner inP st n a).st.head.fill
      = round_up ((alloc_noncopy_inner inP st n a).start + n) ptrAlign := by
  by_cases hcap : round_up (round_up (st.head.fill + ptrSize) a + n) ptrAlign > st.head.cap
  · rcases inP with _ | c
    · rw [alloc_noncopy_inner_replace st n a hcap]
    · rw [alloc_noncopy_inner_inplace c st n a hcap]
  · rw [alloc_noncopy_inner_nogrow inP st n a hcap]

theorem noncopy_inner_start_le (inP : Option Nat) (st : AnyArena) (n a : Nat)
    (k : Nat) (hk : k ≤ 64) (ha : a = 2 ^ k)
    (hb : st.head.fill + ptrSize + a - 1 ≤ usizeMax) :
    (alloc_noncopy_inner inP st n a).start ≤ st.head.fill + ptrSize + a - 1 := by
  have hps : ptrSize = 8 := rfl
  have hp1 : round_up (st.head.fill + ptrSize) a ≤ st.head.fill + ptrSize + a - 1 :=
    round_up_le_of _ k hk ha (by omega)
  have hp2 : round_up ptrSize a ≤ ptrSize + a - 1 :=
    round_up_le_of _ k hk ha (by omega)
  have hap : 0 < a := by rw [ha]; exact Nat.pow_pos (by decide)
  by_cases hcap : round_up (round_up (st.head.fill + ptrSize) a + n) ptrAlign > st.head.cap
  · rcases inP with _ | c
    · rw [alloc_noncopy_inner_replace st n a hcap]
      show round_up ptrSize a ≤ st.head.fill + ptrSize + a - 1
      omega
    · rw [alloc_noncopy_inner_inplace c st n a hcap]
      exact hp1
  · rw [alloc_noncopy_inner_nogrow inP st n a hcap]
    exact hp1

theorem noncopy_inner_fill_ge (inP : Option Nat) (st : AnyArena) (n a : Nat)
    (k : Nat) (hk : k ≤ 64) (ha : a = 2 ^ k)
    (hb : st.head.fill + a + n + 16 ≤ usizeMax) :
    (alloc_noncopy_inner inP st n a).start + n ≤ (alloc_noncopy_inner inP st n a).st.head.fill := by
  have hps : ptrSize = 8 := rfl
  have hpa : ptrAlign = 8 := rfl
  have hstart := noncopy_inner_start_le inP st n a k hk ha (by omega)
  rw [noncopy_inner_fill]
  exact le_round_up_of _ 3 (by norm_num) (by rw [hpa, eight_eq_pow]) (by rw [hpa]; omega)

theorem copy_inner_start_ge (inP : Option Nat) (st : AnyArena) (n a : Nat)
    (k : Nat) (hk : k ≤ 64) (ha : a = 2 ^ k)
    (hb : st.copy_head.fill + a - 1 ≤ usizeMax) :
    (alloc_copy_inner inP st n a).replaced = false →
      st.copy_head.fill ≤ (alloc_copy_inner inP st n a).start := by
  intro hrep
  have hge : st.copy_head.fill ≤ round_up st.copy_head.fill a :=
    le_round_up_of _ k hk ha hb
  by_cases hcap : round_up st.copy_head.fill a + n > st.copy_head.cap
  · rcases inP with _ | c
    · rw [alloc_copy_inner_replace st n a hcap] at hrep
      simp at hrep
    · rw [alloc_copy_inner_inplace c st n a hcap]
      exact hge
  · rw [alloc_copy_inner_nogrow inP st n a hcap]
    exact hge

theorem noncopy_inner_ts (inP : Option Nat) (st : AnyArena) (n a : Nat) :
    (alloc_noncopy_inner inP st n a).replaced = false →
      (alloc_noncopy_inner inP st n a).tydesc_start = st.head.fill := by
  intro hrep
  by_cases hcap : round_up (round_up (st.head.fill + ptrSize) a + n) ptrAlign > st.head.cap
  · rcases inP with _ | c
    · rw [alloc_noncopy_inner_replace st n a hcap] at hrep
      simp at hrep
    · rw [alloc_noncopy_inner_inplace c st n a hcap]
  · rw [alloc_noncopy_inner_nogrow inP st n a hcap]

theorem copy_inner_start_dvd (inP : Option Nat) (st : AnyArena) (n a : Nat)
    (k : Nat) (hk : k ≤ 64) (ha : a = 2 ^ k)
    (hb : st.copy_head.fill + a - 1 ≤ usizeMax) :
    a ∣ (alloc_copy_inner inP st n a).start := by
  have hd : a ∣ round_up st.copy_head.fill a := dvd_round_up_of _ k hk ha hb
  by_cases hcap : round_up st.copy_head.fill a + n > st.copy_head.cap
  · rcases inP with _ | c
    · rw [alloc_copy_inner_replace st n a hcap]
      exact Dvd.intro 0 rfl
    · rw [alloc_copy_inner_inplace c st n a hcap]
      exact hd
  · rw [alloc_copy_inner_nogrow inP st n a hcap]
    exact hd

theorem noncopy_inner_start_dvd (inP : Option Nat) (st : AnyArena) (n a : Nat)
    (k : Nat) (hk : k ≤ 64) (ha : a = 2 ^ k)
    (hb : st.head.fill + ptrSize + a - 1 ≤ usizeMax) :
    a ∣ (alloc_noncopy_inner inP st n a).start := by
  have hps : ptrSize = 8 := rfl
  have hd1 : a ∣ round_up (st.head.fill + ptrSize) a := dvd_round_up_of _ k hk ha (by omega)
  have hd2 : a ∣ round_up ptrSize a := dvd_round_up_of _ k hk ha (by omega)
  by_cases hcap : round_up (round_up (st.head.fill + ptrSize) a + n) ptrAlign > st.head.cap
  · rcases inP with _ | c
    · rw [alloc_noncopy_inner_replace st n a hcap]
      exact hd2
    · rw [alloc_noncopy_inner_inplace c st n a hcap]
      exact hd1
  · rw [alloc_noncopy_inner_nogrow inP st n a hcap]
    exact hd1

theorem chunksEvents_eq_join (tds : Nat → TyDesc) (cs : List Chunk) :
    chunksEvents tds cs
      = ((cs.filter (fun c => c.is_copy == false)).map (Chunk.destroy tds)).flatten := by
  induction cs with
  | nil => rfl
  | cons c cs ih =>
    cases hc : c.is_copy <;> simp [chunksEvents, hc, ih, List.filter]

/-! ### Structural facts used by the flag claims -/

theorem copy_inner_head (inP : Option Nat) (st : AnyArena) (n a : Nat) :
    (alloc_copy_inner inP st n a).st.head = st.head := by
  by_cases hcap : round_up st.copy_head.fill a + n > st.copy_head.cap
  · rcases inP with _ | c
    · rw [alloc_copy_inner_replace st n a hcap]
    · rw [alloc_copy_inner_inplace c st n a hcap]
  · rw [alloc_copy_inner_nogrow inP st n a hcap]

theorem noncopy_inner_copy_head (inP : Option Nat) (st : AnyArena) (n a : Nat) :
    (alloc_noncopy_inner inP st n a).st.copy_head = st.copy_head := by
  by_cases hcap : round_up (round_up (st.head.fill + ptrSize) a + n) ptrAlign > st.head.cap
  · rcases inP with _ | c
    · rw [alloc_noncopy_inner_replace st n a hcap]
    · rw [alloc_noncopy_inner_inplace c st n a hcap]
  · rw [alloc_noncopy_inner_nogrow inP st n a hcap]

theorem copy_inner_copy_flag (inP : Option Nat) (st : AnyArena) (n a : Nat) :
    (alloc_copy_inner inP st n a).st.copy_head.is_copy = st.copy_head.is_copy
    ∨ (alloc_copy_inner inP st n a).st.copy_head.is_copy = true := by
  by_cases hcap : round_up st.copy_head.fill a + n > st.copy_head.cap
  · rcases inP with _ | c
    · rw [alloc_copy_inner_replace st n a hcap]
      exact Or.inr rfl
    · rw [alloc_copy_inner_inplace c st n a hcap]
      exact Or.inl rfl
  · rw [alloc_copy_inner_nogrow inP st n a hcap]
    exact Or.inl rfl

theorem noncopy_inner_head_flag (inP : Option Nat) (st : AnyArena) (n a : Nat) :
    (alloc_noncopy_inner inP st n a).st.head.is_copy = st.head.is_copy
    ∨ (alloc_noncopy_inner inP st n a).st.head.is_copy = false := by
  by_cases hcap : round_up (round_up (st.head.fill + ptrSize) a + n) ptrAlign > st.head.cap
  · rcases inP with _ | c
    · rw [alloc_noncopy_inner_replace st n a hcap]
      exact Or.inr rfl
    · rw [alloc_noncopy_inner_inplace c st n a hcap]
      exact Or.inl rfl
  · rw [alloc_noncopy_inner_nogrow inP st n a hcap]
    exact Or.inl rfl

theorem copy_inner_chunks (inP : Option Nat) (st : AnyArena) (n a : Nat) :
    (alloc_copy_inner inP st n a).st.chunks = st.chunks
    ∨ (alloc_copy_inner inP st n a).st.chunks = st.chunks ++ [st.copy_head] := by
  by_cases hcap : round_up st.copy_head.fill a + n > st.copy_head.cap
  · rcases inP with _ | c
    · rw [alloc_copy_inner_replace st n a hcap]
      by_cases hf : st.copy_head.fill ≠ 0
      · rw [if_pos hf]
        exact Or.inr rfl
      · rw [if_neg hf]
        exact Or.inl (by simp)
    · rw [alloc_copy_inner_inplace c st n a hcap]
      exact Or.inl rfl
  · rw [alloc_copy_inner_nogrow inP st n a hcap]
    exact Or.inl rfl

theorem noncopy_inner_chunks (inP : Option Nat) (st : AnyArena) (n a : Nat) :
    (alloc_noncopy_inner inP st n a).st.chunks = st.chunks
    ∨ (alloc_noncopy_inner inP st n a).st.chunks = st.chunks ++ [st.head] := by
  by_cases hcap : round_up (round_up (st.head.fill + ptrSize) a + n) ptrAlign > st.head.cap
  · rcases inP with _ | c
    · rw [alloc_noncopy_inner_replace st n a hcap]
      by_cases hf : st.head.fill ≠ 0
      · rw [if_pos hf]
        exact Or.inr rfl
      · rw [if_neg hf]
        exact Or.inl (by simp)
    · rw [alloc_noncopy_inner_inplace c st n a hcap]
      exact Or.inl rfl
  · rw [alloc_noncopy_inner_nogrow inP st n a hcap]
    exact Or.inl rfl

theorem alloc_noncopy_head_flag (tds : Nat → TyDesc) (inP : Option Nat) (td : Nat)
    (p : Bool) (st : AnyArena) :
    (alloc_noncopy tds inP td p st).1.head.is_copy
      = (alloc_noncopy_inner inP st (tds td).size (tds td).align).st.head.is_copy := by
  cases p <;> rfl

theorem alloc_noncopy_copy_head (tds : Nat → TyDesc) (inP : Option Nat) (td : Nat)
    (p : Bool) (st : AnyArena) :
    (alloc_noncopy tds inP td p st).1.copy_head = st.copy_head := by
  cases p <;> exact noncopy_inner_copy_head inP st (tds td).size (tds td).align

/-! ### The claims -/

/-- C1: for every sequence of alloc calls on a fresh arena in which some
noncopy call's initializer panics after the header write and before the
finalize step, the slot's header records init flag false, and the teardown
bulk-destroy walk runs no destructor on that slot: the total destructor
count equals exactly the number of allocations whose initializers completed,
the failed one contributing zero. -/
theorem claim_c1 (tds : Nat → TyDesc) (sz : Nat) (ops : List Op)
    (hsafe : safeOps tds (AnyArena.new_with_size sz) ops = true)
    (hnc : noClear ops = true)
    (hfail : ∃ inP td, Op.allocNoncopy inP td true ∈ ops) :
    (AnyArena.dropAll tds (run tds (AnyArena.new_with_size sz) ops).1).length = countSucc ops
    ∧ ∀ (st : AnyArena) (inP : Option Nat) (td : Nat),
        (alloc_noncopy tds inP td true st).1.head.mem
          (alloc_noncopy_inner inP st (tds td).size (tds td).align).tydesc_start
          = bitpack_tydesc_ptr td false := by
  constructor
  · have hrun := run_noClear tds ops (AnyArena.new_with_size sz) 0 hnc hsafe
      (arenaTotal_new tds sz)
    have hd := arenaTotal_dropAll tds _ _ hrun.1
    simpa using hd
  · intro st inP td
    simp [alloc_noncopy, writeWord]

set_option maxRecDepth 400000 in
theorem claim_c1_witness :
    (AnyArena.dropAll tdsA (run tdsA (AnyArena.new_with_size 32) opsC1).1).length
      = countSucc opsC1 :=
  (claim_c1 tdsA 32 opsC1 (by decide) (by decide) ⟨none, 2, by decide⟩).1

/-- C2: the bulk-destroy walk of `Chunk::destroy` is exactly the sequential
walk the spec describes (read header at offset, unpack via the low bit,
payload at the aligned position past the header, invoke iff the flag is set,
advance to the next header-aligned position past the payload); on a chunk
whose bytes parse as records, it emits one destructor invocation per
finalized record, in allocation order (payload offsets strictly increase). -/
theorem claim_c2 :
    (∀ (tds : Nat → TyDesc) (mem : Nat → Nat) (fill fuel idx : Nat),
      destroyLoop tds mem fill fuel idx = specWalk tds mem fill fuel idx)
    ∧ ∀ (tds : Nat → TyDesc) (c : Chunk) (rs : List ARec),
        ChunkRecs tds c.mem 0 c.fill rs →
          Chunk.destroy tds c = eventsOf tds rs
          ∧ (eventsOf tds rs).Pairwise (fun e1 e2 => e1.payload < e2.payload) := by
  constructor
  · intro tds mem fill fuel idx
    exact destroyLoop_eq_specWalk tds mem fill fuel idx
  · intro tds c rs h
    exact ⟨Chunk.destroy_eq tds c rs h, h.pairwise_events⟩

set_option maxRecDepth 40000 in
theorem claim_c2_witness :
    Chunk.destroy tdsB cB = eventsOf tdsB rsB
    ∧ (eventsOf tdsB rsB).Pairwise (fun e1 e2 => e1.payload < e2.payload) := by
  have hrecs : ChunkRecs tdsB cB.mem 0 cB.fill rsB := by
    refine .cons 0 32 2 true _ (by decide) (by decide) (by decide) (by decide)
      (by decide) (by decide) ?_
    have h16 : slotNext tdsB 2 0 = 16 := by decide
    rw [h16]
    refine .cons 16 32 2 false _ (by decide) (by decide) (by decide) (by decide)
      (by decide) (by decide) ?_
    have h32 : slotNext tdsB 2 16 = 32 := by decide
    rw [h32]
    exact .nil 32
  exact claim_c2.2 tdsB cB rsB hrecs

/-- C3: clear invokes the destructor of every initialized noncopy object
currently stored (head or retired), empties the retired list, and resets the
fill cursors of both active chunks to zero while keeping their buffers;
consequently, across rounds of 100 successful noncopy allocations followed
by clear, the cumulative destructor count after round i (0-indexed) is
i*100 + 100. -/
theorem claim_c3 (tds : Nat → TyDesc) (td sz i : Nat)
    (hsafe : safeOps tds (AnyArena.new_with_size sz) (roundsOps td 100 (i + 1)) = true) :
    (run tds (AnyArena.new_with_size sz) (roundsOps td 100 (i + 1))).2.length
        = i * 100 + 100
    ∧ (∀ (st : AnyArena) (m : Nat), ArenaTotal tds st m →
        ((AnyArena.clear tds st).2).length = m ∧ ArenaTotal tds (AnyArena.clear tds st).1 0)
    ∧ (∀ st : AnyArena,
        (AnyArena.clear tds st).1.chunks = []
        ∧ (AnyArena.clear tds st).1.head.fill = 0
        ∧ (AnyArena.clear tds st).1.copy_head.fill = 0
        ∧ (AnyArena.clear tds st).1.head.cap = st.head.cap
        ∧ (AnyArena.clear tds st).1.head.mem = st.head.mem
        ∧ (AnyArena.clear tds st).1.copy_head.cap = st.copy_head.cap) := by
  refine ⟨?_, ?_, ?_⟩
  · have h := rounds_spec tds td 100 (i + 1) (AnyArena.new_with_size sz)
      (arenaTotal_new tds sz) hsafe
    rw [h.1]
    ring
  · intro st m hm
    exact arenaTotal_clear tds st m hm
  · intro st
    exact ⟨rfl, rfl, rfl, rfl, rfl, rfl⟩

set_option maxRecDepth 1000000 in
theorem claim_c3_witness :
    (run tdsA (AnyArena.new_with_size 32) (roundsOps 2 100 (0 + 1))).2.length
      = 0 * 100 + 100 :=
  (claim_c3 tdsA 2 32 0 (by decide)).1

/-- C4: every allocation on either path returns an offset into the active
chunk that is a multiple of the requested alignment; hence the returned
address `base + offset` is congruent to 0 modulo the type's alignment
whenever the chunk's backing buffer address `base` is itself aligned (the
alignment is a power of two and the offset arithmetic stays in `usize`). -/
theorem claim_c4 (inP : Option Nat) (st : AnyArena) (n : Nat) (a k : Nat)
    (hk : k ≤ 64) (ha : a = 2 ^ k)
    (hbc : st.copy_head.fill + a + 16 ≤ usizeMax)
    (hbn : st.head.fill + a + 16 ≤ usizeMax) :
    (a ∣ (alloc_copy_inner inP st n a).start
      ∧ ∀ base, a ∣ base → (base + (alloc_copy_inner inP st n a).start) % a = 0)
    ∧ (a ∣ (alloc_noncopy_inner inP st n a).start
      ∧ ∀ base, a ∣ base → (base + (alloc_noncopy_inner inP st n a).start) % a = 0) := by
  have hps : ptrSize = 8 := rfl
  have hap : 0 < a := by rw [ha]; exact Nat.pow_pos (by decide)
  have hd1 := copy_inner_start_dvd inP st n a k hk ha (by omega)
  have hd2 := noncopy_inner_start_dvd inP st n a k hk ha (by omega)
  refine ⟨⟨hd1, ?_⟩, ⟨hd2, ?_⟩⟩
  · intro base hb
    exact Nat.mod_eq_zero_of_dvd (Nat.dvd_add hb hd1)
  · intro base hb
    exact Nat.mod_eq_zero_of_dvd (Nat.dvd_add hb hd2)

theorem claim_c4_witness :
    8 ∣ (alloc_noncopy_inner none stW 48 8).start :=
  ((claim_c4 none stW 48 8 3 (by norm_num) (by norm_num) (by decide) (by decide)).2).1

/-- C5 counterexample: with current capacity 32 and requested extra 64, the
claim predicts a replacement capacity of max(64, 32) rounded up to the next
power of two, which is 64 (64 is already a power of two); the code installs
capacity 128, because it computes `(max + 1).next_power_of_two()`. -/
theorem claim_c5_counterexample :
    (alloc_grow none (Chunk.new 32 true) 0 64).head.cap = 128
    ∧ next_power_of_two (max 64 (Chunk.new 32 true).cap) = 64
    ∧ (alloc_grow none (Chunk.new 32 true) 0 64).head.cap
        ≠ next_power_of_two (max 64 (Chunk.new 32 true).cap) := by decide

/-- C5 amended: whenever growth cannot extend the chunk in place, the
replacement chunk's capacity is the least power of two STRICTLY greater than
max(requested_extra, current_capacity), and the displaced chunk is pushed
onto the retired list if and only if its fill is nonzero. -/
theorem claim_c5 (head : Chunk) (used_cap n_bytes : Nat) :
    (alloc_grow none head used_cap n_bytes).replaced = true
    ∧ max n_bytes head.cap < (alloc_grow none head used_cap n_bytes).head.cap
    ∧ (∃ b, (alloc_grow none head used_cap n_bytes).head.cap = 2 ^ b)
    ∧ (∀ j, max n_bytes head.cap < 2 ^ j →
        (alloc_grow none head used_cap n_bytes).head.cap ≤ 2 ^ j)
    ∧ ((alloc_grow none head used_cap n_bytes).retired = some head ↔ head.fill ≠ 0)
    ∧ ((alloc_grow none head used_cap n_bytes).retired = none ↔ head.fill = 0) := by
  have hcap : (alloc_grow none head used_cap n_bytes).head.cap
      = next_power_of_two (max n_bytes head.cap + 1) := rfl
  have hret : (alloc_grow none head used_cap n_bytes).retired
      = if head.fill ≠ 0 then some head else none := rfl
  refine ⟨rfl, ?_, ?_, ?_, ?_, ?_⟩
  · rw [hcap]
    have := le_next_power_of_two (max n_bytes head.cap + 1)
    omega
  · rw [hcap]
    exact next_power_of_two_isPow _
  · intro j hj
    rw [hcap]
    exact next_power_of_two_min _ j (by omega)
  · rw [hret]
    by_cases hf : head.fill ≠ 0 <;> simp [hf]
  · rw [hret]
    by_cases hf : head.fill ≠ 0
    · simp [if_pos hf, hf]
    · simp [if_neg hf]
      omega

theorem claim_c5_witness :
    (alloc_grow none (Chunk.new 32 true) 0 64).head.cap ≤ 2 ^ 7 :=
  (claim_c5 (Chunk.new 32 true) 0 64).2.2.2.1 7 (by decide)

/-- C6: on both paths, the inner reservation (which runs before the user
initializer) leaves the pool's fill cursor at or past the end of the
reserved slot, and a reentrant reservation on the same arena that does not
install a fresh chunk starts at or beyond the current fill cursor — hence
beyond the not-yet-finalized slot. -/
theorem claim_c6 :
    (∀ (inP : Option Nat) (st : AnyArena) (n a : Nat),
      (alloc_copy_inner inP st n a).st.copy_head.fill
        = (alloc_copy_inner inP st n a).start + n)
    ∧ (∀ (inP : Option Nat) (st : AnyArena) (n a k : Nat), k ≤ 64 → a = 2 ^ k →
        st.head.fill + a + n + 16 ≤ usizeMax →
        (alloc_noncopy_inner inP st n a).start + n
          ≤ (alloc_noncopy_inner inP st n a).st.head.fill)
    ∧ (∀ (inP : Option Nat) (st : AnyArena) (n a k : Nat), k ≤ 64 → a = 2 ^ k →
        st.copy_head.fill + a - 1 ≤ usizeMax →
        (alloc_copy_inner inP st n a).replaced = false →
          st.copy_head.fill ≤ (alloc_copy_inner inP st n a).start)
    ∧ (∀ (inP : Option Nat) (st : AnyArena) (n a : Nat),
        (alloc_noncopy_inner inP st n a).replaced = false →
          (alloc_noncopy_inner inP st n a).tydesc_start = st.head.fill) := by
  refine ⟨copy_inner_fill, ?_, ?_, noncopy_inner_ts⟩
  · intro inP st n a k hk ha hb
    exact noncopy_inner_fill_ge inP st n a k hk ha hb
  · intro inP st n a k hk ha hb
    exact copy_inner_start_ge inP st n a k hk ha hb

theorem claim_c6_witness :
    (alloc_noncopy_inner none stW 48 8).start + 48
      ≤ (alloc_noncopy_inner none stW 48 8).st.head.fill :=
  claim_c6.2.1 none stW 48 8 3 (by norm_num) (by norm_num) (by decide)

/-- C7: alloc_bytes raises the explicit overflow panic exactly when the copy
pool's fill plus the requested length exceeds `usize::MAX`; otherwise it
routes the request through the destructor-free pool with alignment 1 and
returns a byte range of exactly the requested length, the fill cursor ending
right past it. -/
theorem claim_c7 (inP : Option Nat) (st : AnyArena) (len : Nat) :
    (alloc_bytes inP st len = none ↔ usizeMax < st.copy_head.fill + len)
    ∧ (∀ (st2 : AnyArena) (off l2 : Nat),
        alloc_bytes inP st len = some (st2, off, l2) →
          l2 = len
          ∧ st2 = (alloc_copy_inner inP st len 1).st
          ∧ off = (alloc_copy_inner inP st len 1).start
          ∧ st2.copy_head.fill = off + len) := by
  constructor
  · unfold alloc_bytes
    by_cases h : st.copy_head.fill + len ≤ usizeMax
    · rw [if_pos h]
      constructor
      · intro hc
        cases hc
      · intro hc
        omega
    · rw [if_neg h]
      constructor
      · intro _
        omega
      · intro _
        rfl
  · intro st2 off l2 hsome
    unfold alloc_bytes at hsome
    by_cases h : st.copy_head.fill + len ≤ usizeMax
    · rw [if_pos h] at hsome
      have hinj := Option.some.inj hsome
      obtain ⟨h1, h2, h3⟩ : (alloc_copy_inner inP st len 1).st = st2
          ∧ (alloc_copy_inner inP st len 1).start = off ∧ len = l2 := by
        have := congrArg Prod.fst hinj
        have := congrArg (fun p => p.2.1) hinj
        have := congrArg (fun p => p.2.2) hinj
        exact ⟨by assumption, by assumption, by assumption⟩
      refine ⟨h3.symm, h1.symm, h2.symm, ?_⟩
      rw [← h1, ← h2]
      exact copy_inner_fill inP st len 1
    · rw [if_neg h] at hsome
      cases hsome

theorem claim_c7_witness : alloc_bytes none stW (2 ^ 64) = none :=
  (claim_c7 none stW (2 ^ 64)).1.mpr (by decide)

/-- C8: packing a descriptor address with a done flag and unpacking recovers
the pair, for every address with clear low bit that fits in `usize` and
every flag: pack is `address ||| flag`, unpack masks the low bit off and
tests it. -/
theorem claim_c8 (p : Nat) (b : Bool) (hp : p % 2 = 0) (hlt : p + 1 ≤ usizeMax) :
    un_bitpack_tydesc_ptr (bitpack_tydesc_ptr p b) = (p, b) :=
  un_bitpack_bitpack b hp hlt

theorem claim_c8_witness :
    un_bitpack_tydesc_ptr (bitpack_tydesc_ptr 16 true) = (16, true) :=
  claim_c8 16 true (by decide) (by decide)

set_option maxRecDepth 40000 in
/-- C9: the code violates the spec invariant `fill ≤ capacity`: on a 64-byte
arena, allocating a size-48/align-8 noncopy value and then a size-2/align-128
one (with in-place growth unavailable) installs a replacement chunk of
capacity 128 but sets its fill to 136 — the slot recomputed at offset 0 of
the new chunk needs more bytes than the request that sized it, so the
payload write runs past the end of the buffer.  Both calls satisfy the
per-call safety conditions. -/
theorem claim_c9_bug :
    safeOps tdsA (AnyArena.new_with_size 64) opsC9 = true
    ∧ (run tdsA (AnyArena.new_with_size 64) opsC9).1.head.fill = 136
    ∧ (run tdsA (AnyArena.new_with_size 64) opsC9).1.head.cap = 128
    ∧ (run tdsA (AnyArena.new_with_size 64) opsC9).1.head.cap
        < (run tdsA (AnyArena.new_with_size 64) opsC9).1.head.fill := by decide

/-- C10: in every reachable state the head chunk has `is_copy = false` and
the copy head `is_copy = true` (every call preserves this); a copy-path call
only retires chunks with `is_copy = true` and a noncopy-path call only
chunks with `is_copy = false`; clear empties the retired list; and the
destroy walks of clear and teardown cover exactly the head chunk plus the
retired chunks whose flag is false — copy chunks are freed without being
walked. -/
theorem claim_c10 :
    (∀ (tds : Nat → TyDesc) (op : Op) (st : AnyArena),
      st.head.is_copy = false → st.copy_head.is_copy = true →
        (step tds st op).1.head.is_copy = false
        ∧ (step tds st op).1.copy_head.is_copy = true)
    ∧ (∀ (inP : Option Nat) (n a : Nat) (st : AnyArena),
        st.copy_head.is_copy = true →
          ∀ c ∈ (alloc_copy_inner inP st n a).st.chunks,
            c ∈ st.chunks ∨ c.is_copy = true)
    ∧ (∀ (inP : Option Nat) (n a : Nat) (st : AnyArena),
        st.head.is_copy = false →
          ∀ c ∈ (alloc_noncopy_inner inP st n a).st.chunks,
            c ∈ st.chunks ∨ c.is_copy = false)
    ∧ (∀ (tds : Nat → TyDesc) (st : AnyArena), (AnyArena.clear tds st).1.chunks = [])
    ∧ (∀ (tds : Nat → TyDesc) (st : AnyArena),
        (AnyArena.clear tds st).2
          = Chunk.destroy tds st.head
            ++ ((st.chunks.filter (fun c => c.is_copy == false)).map
                  (Chunk.destroy tds)).flatten
        ∧ AnyArena.dropAll tds st
          = Chunk.destroy tds st.head
            ++ ((st.chunks.filter (fun c => c.is_copy == false)).map
                  (Chunk.destroy tds)).flatten) := by
  refine ⟨?_, ?_, ?_, ?_, ?_⟩
  · intro tds op st hh hc
    cases op with
    | allocCopy inP n a =>
      constructor
      · show (alloc_copy_inner inP st n a).st.head.is_copy = false
        rw [copy_inner_head]
        exact hh
      · rcases copy_inner_copy_flag inP st n a with h | h
        · exact h.trans hc
        · exact h
    | allocNoncopy inP td p =>
      constructor
      · show (alloc_noncopy tds inP td p st).1.head.is_copy = false
        rw [alloc_noncopy_head_flag]
        rcases noncopy_inner_head_flag inP st (tds td).size (tds td).align with h | h
        · rw [h]
          exact hh
        · exact h
      · show (alloc_noncopy tds inP td p st).1.copy_head.is_copy = true
        rw [alloc_noncopy_copy_head]
        exact hc
    | allocBytes inP len =>
      by_cases h : st.copy_head.fill + len ≤ usizeMax
      · have hb : (step tds st (Op.allocBytes inP len)).1
            = (alloc_copy_inner inP st len 1).st := by
          simp [step, alloc_bytes, h]
        rw [hb]
        constructor
        · rw [copy_inner_head]
          exact hh
        · rcases copy_inner_copy_flag inP st len 1 with h2 | h2
          · exact h2.trans hc
          · exact h2
      · have hb : (step tds st (Op.allocBytes inP len)).1 = st := by
          simp [step, alloc_bytes, h]
        rw [hb]
        exact ⟨hh, hc⟩
    | clearOp => exact ⟨hh, hc⟩
  · intro inP n a st hc c hmem
    rcases copy_inner_chunks inP st n a with h | h
    · rw [h] at hmem
      exact Or.inl hmem
    · rw [h] at hmem
      rcases List.mem_append.mp hmem with h2 | h2
      · exact Or.inl h2
      · right
        rw [List.mem_singleton.mp h2]
        exact hc
  · intro inP n a st hh c hmem
    rcases noncopy_inner_chunks inP st n a with h | h
    · rw [h] at hmem
      exact Or.inl hmem
    · rw [h] at hmem
      rcases List.mem_append.mp hmem with h2 | h2
      · exact Or.inl h2
      · right
        rw [List.mem_singleton.mp h2]
        exact hh
  · intro tds st
    rfl
  · intro tds st
    constructor
    · show Chunk.destroy tds st.head ++ chunksEvents tds st.chunks = _
      rw [chunksEvents_eq_join]
    · show Chunk.destroy tds st.head ++ chunksEvents tds st.chunks = _
      rw [chunksEvents_eq_join]

theorem claim_c10_witness :
    (step tdsA stW Op.clearOp).1.head.is_copy = false
    ∧ (step tdsA stW Op.clearOp).1.copy_head.is_copy = true :=
  claim_c10.1 tdsA Op.clearOp stW (by decide) (by decide)
